import Mathlib

/-!
Verification model of the `jsonobj` Go package (src/jsonobj.go).

The package stores a parsed JSON document as a dynamic Go value
(`interface{}` trees produced by `json.Unmarshal`) and exposes
`Get`, `Set`, `Len`, `Export` driven by a dot/bracket path syntax.

Shallow embedding conventions:
  * `float64` JSON numbers are modelled as exact rationals `ℚ`
    (every JSON number in a document is an exactly representable
    double; the only double operations the code performs on them are
    subtraction, comparison with zero and integer casts, which are
    modelled exactly below).
  * Go maps `map[string]interface{}` are modelled as association
    lists; key uniqueness is not needed by any proof.
  * In-place mutation through `reflect` is modelled by explicit state
    passing: functions return the updated value.
  * Go `panic`s (reflect faults) are modelled as an explicit
    `aborted` outcome, distinct from the returned error taxonomy.
-/

set_option maxRecDepth 20000

namespace Jo

/-- Error taxonomy of the package: `ErrInvalidIn`, `ErrInvalidOut`,
`ErrInvalidPath`, `ErrNotFound`, `ErrOutOfRange`, `ErrTruncate`,
`ErrTypeMissmatch` (src/jsonobj.go lines 26-54). -/
inductive JErr
  | invalidIn
  | invalidOut
  | invalidPath
  | notFound
  | outOfRange
  | truncate
  | typeMismatch
deriving DecidableEq, Repr

/-- Dynamic JSON value: the shape of the `interface{}` trees produced by
`json.Unmarshal` into an untyped variable: `nil`, `bool`, `float64`,
`string`, `[]interface{}`, `map[string]interface{}`. -/
inductive JValue
  | null
  | bool (b : Bool)
  | num (q : ℚ)
  | str (s : String)
  | arr (xs : List JValue)
  | obj (kvs : List (String × JValue))

instance : Inhabited JValue := ⟨.null⟩

/-- Go map read `m[k]` on the association-list model (first binding wins). -/
def lookupA : List (String × JValue) → String → Option JValue
  | [], _ => none
  | (k', w) :: t, k => if k' = k then some w else lookupA t k

/-- Go map write `m[k] = v` on the association-list model:
replace the first binding of `k`, or append a new binding. -/
def updateA : List (String × JValue) → String → JValue → List (String × JValue)
  | [], k, v => [(k, v)]
  | (k', w) :: t, k, v => if k' = k then (k, v) :: t else (k', w) :: updateA t k v

/-- Whether a dynamic value is a JSON array (`[]interface{}`). -/
def isArr : JValue → Bool
  | .arr _ => true
  | _ => false

/-- Whether a dynamic value is a scalar (bool, number or string). -/
def isScalar : JValue → Bool
  | .bool _ => true
  | .num _ => true
  | .str _ => true
  | _ => false

/-! ### Path parsing (the `find` method, src/jsonobj.go lines 94-178) -/

/-- `strings.Split` on a single separator character, over `List Char`.
`strings.Split("", sep)` yields `[""]`, and consecutive separators
yield empty fields, exactly as in Go. -/
def splitOnChar (c : Char) : List Char → List (List Char)
  | [] => [[]]
  | x :: xs =>
    if x = c then [] :: splitOnChar c xs
    else
      match splitOnChar c xs with
      | s :: ss => (x :: s) :: ss
      | [] => [[x]]

/-- `strings.LastIndex(s, c)` for a one-character needle: the index of the
last occurrence, or `-1` when absent (Go returns an `int`). -/
def lastIdxZ (c : Char) : List Char → ℤ
  | [] => -1
  | x :: xs =>
    let r := lastIdxZ c xs
    if r ≥ 0 then r + 1
    else if x = c then 0 else -1

/-- Numeric value of a digit run (most significant first). -/
def digitsVal (ds : List Char) : ℤ :=
  ds.foldl (fun a c => a * 10 + ((c.toNat : ℤ) - 48)) 0

/-- The digit part of `strconv.Atoi` after the optional sign: a
non-empty run of ASCII digits whose (signed) value fits a 64-bit `int`;
anything else is an error (`none`). -/
def goAtoiCore (neg : Bool) (ds : List Char) : Option ℤ :=
  if ds = [] then none
  else if ds.all (fun d => decide ('0' ≤ d) && decide (d ≤ '9')) then
    let v : ℤ := if neg then -(digitsVal ds) else digitsVal ds
    if v < -(2 ^ 63) ∨ 2 ^ 63 - 1 < v then none else some v
  else none

/-- `strconv.Atoi`: optional leading `+`/`-` sign, then a non-empty run of
ASCII digits; any other shape or a value outside the 64-bit `int` range is
an error (`none`). Note that Go's `Atoi` does accept a leading sign. -/
def goAtoi (s : List Char) : Option ℤ :=
  match s with
  | [] => none
  | c :: rest =>
    if c = '-' then goAtoiCore true rest
    else if c = '+' then goAtoiCore false rest
    else goAtoiCore false (c :: rest)

/-- Bracket handling for one path segment (`find`, lines 114-126): locate
the last `[` and last `]`; with no `[` the whole segment is the field and
the index is the sentinel `-1`; otherwise `]` must come after `[` and the
text between them must parse with `Atoi`, the field being the text before
`[`.  Characters after the last `]` are discarded. -/
def parseSeg (seg : List Char) : Except JErr (String × ℤ) :=
  let a := lastIdxZ '[' seg
  let b := lastIdxZ ']' seg
  if a ≥ 0 then
    if b ≤ a then .error .invalidPath
    else
      match goAtoi ((seg.drop (a.toNat + 1)).take (b - a - 1).toNat) with
      | none => .error .invalidPath
      | some i => .ok (⟨seg.take a.toNat⟩, i)
  else .ok (⟨seg⟩, -1)

/-- Locator key produced by `find` in parent (write) mode: the
`reflect.Value` key, either unset (`reflect.ValueOf(nil)`), an array
index, or a map key. -/
inductive PKey
  | pnone
  | pidx (i : ℤ)
  | pkey (s : String)

/-- The walking loop of `find` (lines 108-177).  `cur` is the `result`
variable; each iteration parses one segment and either errors, captures a
locator (parent mode at the last segment), or descends.  Branch order is
exactly the source's: container shape is checked before index bounds, and
in parent mode a last-segment field capture happens before the key is
looked up. -/
def walk (parent : Bool) (cur : JValue) : List (List Char) → Except JErr (PKey × JValue)
  | [] => .ok (.pnone, cur)
  | seg :: rest =>
    match parseSeg seg with
    | .error e => .error e
    | .ok (keyv, i) =>
      if keyv = "" then
        match cur with
        | .arr si =>
          if i < 0 ∨ (si.length : ℤ) ≤ i then .error .outOfRange
          else if parent ∧ rest.isEmpty then .ok (.pidx i, .arr si)
          else walk parent (si.getD i.toNat .null) rest
        | _ => .error .notFound
      else
        match cur with
        | .obj mi =>
          if i < 0 ∧ parent ∧ rest.isEmpty then .ok (.pkey keyv, .obj mi)
          else
            match lookupA mi keyv with
            | none => .error .notFound
            | some iv =>
              if i > -1 then
                match iv with
                | .arr sv =>
                  if (sv.length : ℤ) ≤ i then .error .outOfRange
                  else if parent ∧ rest.isEmpty then .ok (.pidx i, .arr sv)
                  else walk parent (sv.getD i.toNat .null) rest
                | _ => .error .notFound
              else walk parent iv rest
        | _ => .error .notFound

/-- `find(path, parent)` (lines 94-178): split the path on `.`, reject an
empty split or any empty segment with `ErrInvalidPath`, then walk. -/
def find (root : JValue) (path : String) (parent : Bool) : Except JErr (PKey × JValue) :=
  let keys := splitOnChar '.' path.data
  if keys.length = 0 ∨ keys.any (·.isEmpty) then .error .invalidPath
  else walk parent root keys

/-! ### The `Set` method (src/jsonobj.go lines 393-426)

`Set` resolves the path in parent mode, then mutates the located parent
container in place (`SetMapIndex` on a map, `Index(i).Set` on a slice);
through Go's reference semantics of maps and slices the document root
sees the change.  The explicit-state translation below re-walks the path
with the same branch structure as `find(.., true)` and rebuilds the
spine of the document around the mutated container. -/

/-- Error outcomes of `Set`: one of the package's errors, or an error of
the external `json` encoder while re-encoding the input value. -/
inductive SErr
  | je (e : JErr)
  | encodeFail
  | aborted
deriving DecidableEq, Repr

/-- The explicit-state form of `find(path, true)` fused with the final
store of `Set`: each descent rebuilds the surrounding container, and the
three locator cases of `Set`'s switch (map key, slice index) perform
`updateA` / `List.set` at the captured position.  Every error return
leaves the document exactly as it was (the pair carries the resulting
root in all cases).  `segs = []` cannot be produced by the path splitter;
it corresponds to `Set`'s "parent value not map or slice" programming
fault and is modelled as `aborted`. -/
def setWalk (cur : JValue) (segs : List (List Char)) (v : JValue) :
    Option SErr × JValue :=
  match segs with
  | [] => (some .aborted, cur)
  | seg :: rest =>
    match parseSeg seg with
    | .error e => (some (.je e), cur)
    | .ok (keyv, i) =>
      if keyv = "" then
        match cur with
        | .arr si =>
          if i < 0 ∨ (si.length : ℤ) ≤ i then (some (.je .outOfRange), .arr si)
          else if rest.isEmpty then (none, .arr (si.set i.toNat v))
          else
            let r := setWalk (si.getD i.toNat .null) rest v
            (r.1, .arr (si.set i.toNat r.2))
        | cur => (some (.je .notFound), cur)
      else
        match cur with
        | .obj mi =>
          if i < 0 ∧ rest.isEmpty then (none, .obj (updateA mi keyv v))
          else
            match lookupA mi keyv with
            | none => (some (.je .notFound), .obj mi)
            | some iv =>
              if i > -1 then
                match iv with
                | .arr sv =>
                  if (sv.length : ℤ) ≤ i then (some (.je .outOfRange), .obj mi)
                  else if rest.isEmpty then
                    (none, .obj (updateA mi keyv (.arr (sv.set i.toNat v))))
                  else
                    let r := setWalk (sv.getD i.toNat .null) rest v
                    (r.1, .obj (updateA mi keyv (.arr (sv.set i.toNat r.2))))
                | _ => (some (.je .notFound), .obj mi)
              else
                let r := setWalk iv rest v
                (r.1, .obj (updateA mi keyv r.2))
        | cur => (some (.je .notFound), cur)

/-- A statically-typed Go value handed to `Set` as its `in` parameter
(the modelled subset: the scalar kinds the claims exercise, plus `ch`, a
stand-in for any value `encoding/json` cannot marshal, such as a channel
or an infinite float). -/
inductive GoVal
  | gbool (b : Bool)
  | gstr (s : String)
  | gf64 (q : ℚ)
  | ch

/-- Modelled from the spec: the external encoder/decoder round trip that
`Set` performs on its input (`json.NewEncoder(..).Encode` followed by
`json.Unmarshal`, src/jsonobj.go lines 405-413; the `json` package itself
is outside this repository).  Scalars survive the round trip unchanged
(`encoding/json` prints a `float64` so that it re-parses to the same
value); unencodable inputs fail with the encoder's error. -/
def encode : GoVal → Option JValue
  | .gbool b => some (.bool b)
  | .gstr s => some (.str s)
  | .gf64 q => some (.num q)
  | .ch => none

/-- `Set(path, in)` (lines 393-426): a `nil` input is `ErrInvalidIn`;
then the path is resolved in parent mode (any resolution error is
returned unchanged); then the input is round-tripped through the encoder;
finally the new dynamic value is stored at the locator.  The returned
pair is (error, resulting document root). -/
def Set (root : JValue) (path : String) (inv : Option GoVal) :
    Option SErr × JValue :=
  match inv with
  | none => (some (.je .invalidIn), root)
  | some g =>
    let keys := splitOnChar '.' path.data
    if keys.length = 0 ∨ keys.any (·.isEmpty) then (some (.je .invalidPath), root)
    else
      match walk true root keys with
      | .error e => (some (.je e), root)
      | .ok _ =>
        match encode g with
        | none => (some .encodeFail, root)
        | some v => setWalk root keys v

/-- `Len(path)` (lines 431-442): resolve in read mode; a resolution error
is passed through with count `-1`; a non-array result is
`ErrInvalidPath`; otherwise the element count. -/
def Len (root : JValue) (path : String) : ℤ × Option JErr :=
  match find root path false with
  | .error e => (-1, some e)
  | .ok (_, v) =>
    match v with
    | .arr xs => ((xs.length : ℤ), none)
    | _ => (-1, some .invalidPath)

/-- Minimal JSON string escaping (quote and backslash). -/
def escStr (s : String) : List Char :=
  s.data.flatMap fun c =>
    if c = '"' then ['\\', '"'] else if c = '\\' then ['\\', '\\'] else [c]

/-- `indent.data` repeated `d` times, preceded by a newline (one pretty
line break at nesting depth `d`). -/
def nlIndent (indent : List Char) (d : ℕ) : List Char :=
  '\n' :: (List.replicate d indent).flatten

mutual

/-- Modelled from the spec: serialization of a dynamic value by the
external `json.Marshal` / `json.MarshalIndent` (src/jsonobj.go lines
449-452; the `json` package is outside this repository).  `ind = none`
is the compact form; `ind = some s` pretty-prints with `s` as one
indentation level at nesting depth `d`.  Per spec section 6, object
field ordering follows the stored order; the exact digit rendering of
numbers is not needed by any claim, only that the output is a function
of the dynamic tree. -/
def render (ind : Option (List Char)) (d : ℕ) : JValue → List Char
  | .null => "null".data
  | .bool b => if b then "true".data else "false".data
  | .num q => (if q.den = 1 then toString q.num else toString q).data
  | .str s => '"' :: escStr s ++ ['"']
  | .arr [] => "[]".data
  | .arr (x :: xs) =>
    match ind with
    | none => '[' :: renderArr none d (x :: xs) ++ [']']
    | some s =>
      '[' :: nlIndent s (d + 1) ++ renderArr (some s) (d + 1) (x :: xs)
        ++ nlIndent s d ++ [']']
  | .obj [] => "{}".data
  | .obj (f :: fs) =>
    match ind with
    | none => '{' :: renderObj none d (f :: fs) ++ ['}']
    | some s =>
      '{' :: nlIndent s (d + 1) ++ renderObj (some s) (d + 1) (f :: fs)
        ++ nlIndent s d ++ ['}']

/-- Elements of an array, comma separated (a pretty comma is followed by
a line break at the current depth). -/
def renderArr (ind : Option (List Char)) (d : ℕ) : List JValue → List Char
  | [] => []
  | [x] => render ind d x
  | x :: y :: xs =>
    render ind d x ++ ',' ::
      ((match ind with | none => [] | some s => nlIndent s d)
        ++ renderArr ind d (y :: xs))

/-- Fields of an object, comma separated. -/
def renderObj (ind : Option (List Char)) (d : ℕ) : List (String × JValue) → List Char
  | [] => []
  | [(k, v)] => '"' :: escStr k ++ '"' :: ':' :: render ind d v
  | (k, v) :: g :: t =>
    '"' :: escStr k ++ '"' :: ':' :: render ind d v ++ ',' ::
      ((match ind with | none => [] | some s => nlIndent s d)
        ++ renderObj ind d (g :: t))

end

/-- `Export(indent)` (lines 445-458): serialize the current root through
the external encoder, compact (`json.Marshal`) for an empty `indent` and
pretty-printed (`json.MarshalIndent`) otherwise. -/
def Export (root : JValue) (indent : String) : List Char :=
  if indent = "" then render none 0 root
  else render (some indent.data) 0 root

/-! ### The assignment engine (`assign`, src/jsonobj.go lines 181-353)

`assign(in, out)` dispatches on `out.Kind()` and reads `in` through
`reflect.Value` operations.  Crucially, `in.Len()`, `in.Index(i)`,
`in.MapKeys()` and `in.MapIndex(k)` PANIC when `in`'s reflect kind does
not support them, and `assign` never guards them with a kind check.  The
model therefore distinguishes the reflect views `in` can take:

  * `concrete v`: `reflect.ValueOf(ifc)` of a non-nil `interface{}`
    (the top-level call from `Get`) — kind is the dynamic type;
  * `iface v`: an interface-typed element (`in.Index(i)` of an
    `[]interface{}`, `in.MapIndex(k)` of a `map[string]interface{}`) —
    kind is `Interface`, so `Len`/`Index`/`MapKeys` panic on it, while
    `in.Interface().(T)` type assertions still unwrap it;
  * `byteV b`: `in.Index(i)` of a string (kind `Uint8`);
  * `invalid`: `reflect.ValueOf(nil)` — `!in.IsValid()`, so `assign`
    returns nil immediately.
-/

/-- The reflect view of the `in` parameter of `assign`. -/
inductive RVal
  | invalid
  | concrete (v : JValue)
  | iface (v : JValue)
  | byteV (b : ℕ)

/-- `!in.IsValid()`. -/
def RVal.isInvalid : RVal → Bool
  | .invalid => true
  | _ => false

/-- A fault coming out of `assign`: either a returned package error, or
a `reflect` panic (an uncaught process abort). -/
inductive AFault
  | je (e : JErr)
  | aborted
deriving DecidableEq, Repr

/-- The integer destination kinds of `assign`'s numeric cases (lines
260-349).  `ik`/`uk` are Go's platform-sized `int`/`uint`, modelled as
64-bit (the width on all platforms Go currently ships the package for
that matter here; the source uses `int(v)`/`uint(v)` directly). -/
inductive IKind
  | ik | i8 | i16 | i32 | i64 | uk | u8 | u16 | u32 | u64
deriving DecidableEq, Repr

/-- Lower bound of an integer kind. -/
def loI : IKind → ℤ
  | .ik => -(2 ^ 63) | .i8 => -(2 ^ 7) | .i16 => -(2 ^ 15)
  | .i32 => -(2 ^ 31) | .i64 => -(2 ^ 63)
  | .uk => 0 | .u8 => 0 | .u16 => 0 | .u32 => 0 | .u64 => 0

/-- Upper bound of an integer kind. -/
def hiI : IKind → ℤ
  | .ik => 2 ^ 63 - 1 | .i8 => 2 ^ 7 - 1 | .i16 => 2 ^ 15 - 1
  | .i32 => 2 ^ 31 - 1 | .i64 => 2 ^ 63 - 1
  | .uk => 2 ^ 64 - 1 | .u8 => 2 ^ 8 - 1 | .u16 => 2 ^ 16 - 1
  | .u32 => 2 ^ 32 - 1 | .u64 => 2 ^ 64 - 1

/-- Truncation toward zero of a rational (the exact value of Go's
float-to-integer conversion for in-range arguments). -/
def ratTrunc (q : ℚ) : ℤ :=
  if 0 ≤ q then ⌊q⌋ else ⌈q⌉

/-- Go's non-constant `float64` → integer conversion `T(v)`: truncation
toward zero; when the result does not fit the destination type the Go
specification leaves the value implementation-dependent, and the model
uses the wrap-around the gc compiler produces on amd64 for the narrow
types.  (For any choice landing inside the destination's range the
cast-back comparison below yields the same Truncate verdict, since an
out-of-range `v` can never equal an in-range cast result.) -/
def goF2I (lo hi : ℤ) (q : ℚ) : ℤ :=
  let t := ratTrunc q
  if lo ≤ t ∧ t ≤ hi then t else (t - lo) % (hi - lo + 1) + lo

/-- Round a rational to the nearest integer, ties to even (IEEE 754
default rounding). -/
def roundHalfEven (q : ℚ) : ℤ :=
  let f := ⌊q⌋
  let r := q - (f : ℚ)
  if r < 1 / 2 then f
  else if 1 / 2 < r then f + 1
  else if f % 2 = 0 then f else f + 1

/-- Go's `float64` → `float32` conversion: IEEE 754 round to nearest
even at 24 significand bits, with gradual underflow below `2^-126` and
overflow to infinity (`none`) at `2^128`.  The result (when finite) is
exact as a rational, as is its cast back up to `float64`. -/
def roundF32 (q : ℚ) : Option ℚ :=
  if q = 0 then some 0
  else
    let a := |q|
    let e := max (Int.log 2 a) (-126)
    let m := roundHalfEven (a * (2 : ℚ) ^ (23 - e))
    let r := (m : ℚ) * (2 : ℚ) ^ (e - 23)
    if (2 : ℚ) ^ (128 : ℤ) ≤ r then none
    else some (if q < 0 then -r else r)

mutual

/-- The reflect type of a destination slot, covering exactly the kinds
`assign` dispatches on; `otherT` stands for every other kind, which
`assign`'s switch silently ignores.  A struct type carries its field
descriptors: name, raw `json` struct tag (`fld.Tag.Get("json")`, empty
when absent), `CanSet` (exported), and field type. -/
inductive OType
  | boolT
  | strT
  | f64T
  | f32T
  | intT (k : IKind)
  | sliceT (e : OType)
  | structT (fs : FldList)
  | otherT

/-- Field descriptors of a struct destination type. -/
inductive FldList
  | fnil
  | fcons (name : String) (tag : String) (canSet : Bool) (t : OType) (rest : FldList)

end

/-- The runtime value stored in a destination slot. -/
inductive OVal
  | vbool (b : Bool)
  | vstr (s : String)
  | vf64 (q : ℚ)
  | vf32 (q : ℚ)
  | vint (k : IKind) (n : ℤ)
  | vslice (xs : List OVal)
  | vstruct (fs : List OVal)
  | vother

mutual

/-- The zero `reflect` value of a destination type (what `MakeSlice`
fills new elements with). -/
def zeroOf : OType → OVal
  | .boolT => .vbool false
  | .strT => .vstr ""
  | .f64T => .vf64 0
  | .f32T => .vf32 0
  | .intT k => .vint k 0
  | .sliceT _ => .vslice []
  | .structT fs => .vstruct (zeroFlds fs)
  | .otherT => .vother

/-- Zero values of a struct's fields. -/
def zeroFlds : FldList → List OVal
  | .fnil => []
  | .fcons _ _ _ t rest => zeroOf t :: zeroFlds rest

end

/-- `in.Interface().(bool)`: succeeds on a dynamic bool, whether `in` is
the concrete value or an interface-kinded element. -/
def asBool : RVal → Option Bool
  | .concrete (.bool b) => some b
  | .iface (.bool b) => some b
  | _ => none

/-- `in.Interface().(string)`. -/
def asStr : RVal → Option String
  | .concrete (.str s) => some s
  | .iface (.str s) => some s
  | _ => none

/-- `in.Interface().(float64)`. -/
def asF64 : RVal → Option ℚ
  | .concrete (.num q) => some q
  | .iface (.num q) => some q
  | _ => none

/-- `in.Len()`: defined for reflect kinds Array, Chan, Map, Slice and
String only; everything else (numbers, bools, and interface-kinded
values in particular) panics (`none`).  A Go string's length is its
byte count. -/
def rLen : RVal → Option ℕ
  | .concrete (.arr xs) => some xs.length
  | .concrete (.str s) => some s.utf8ByteSize
  | .concrete (.obj m) => some m.length
  | _ => none

/-- The values `in.Index(0) .. in.Index(n-1)` seen by the slice loop:
for a slice of interfaces they are interface-kinded; for a string they
are bytes; indexing a map (or anything else) panics (`none`). -/
def rElems : RVal → Option (List RVal)
  | .concrete (.arr xs) => some (xs.map .iface)
  | .concrete (.str s) => some (s.toUTF8.toList.map fun b => .byteV b.toNat)
  | .concrete (.obj m) => if m.length = 0 then some [] else none
  | _ => none

/-- `strings.Split(tag, ",")` (note: splitting the empty tag yields
`[""]`, never the empty list). -/
def goSplitComma (s : String) : List String :=
  (splitOnChar ',' s.data).map fun l => ⟨l⟩

/-- `strings.EqualFold` restricted to ASCII case folding (sufficient
here: this comparison is dead code, see `assign`'s struct case — the
tag split is never empty, so the `else` branch never runs). -/
def asciiEqualFold (a b : String) : Bool :=
  a.data.map Char.toLower == b.data.map Char.toLower

mutual

/-- `assign(in, out)` (lines 181-353), with `out` split into its reflect
type `t` and current value `v`; returns (fault?, value now in the slot).
An invalid `in` returns nil immediately.  The switch on `out.Kind()`
transcribes the source case by case; kinds outside the switch
(`otherT`) fall through and return nil. -/
def assign (inv : RVal) (t : OType) (v : OVal) : Option AFault × OVal :=
  if inv.isInvalid then (none, v)
  else
    match t with
    | .sliceT et =>
      -- sl := reflect.MakeSlice(out.Type(), in.Len(), in.Len()); per-element
      -- assign into sl; out.Set(sl) only after a fault-free loop.
      match rLen inv with
      | none => (some .aborted, v)
      | some _ =>
        match rElems inv with
        | none => (some .aborted, v)
        | some elems =>
          let r := assignElems elems et
          match r.1 with
          | some f => (some f, v)
          | none => (none, .vslice r.2)
    | .structT fs =>
      -- keys := in.MapKeys() panics unless in is a concrete map.
      match inv with
      | .concrete (.obj m) =>
        match v with
        | .vstruct vs =>
          let r := assignFields m (m.map (·.1)) fs vs
          (r.1, .vstruct r.2)
        | v => (none, v)
      | _ => (some .aborted, v)
    | .boolT =>
      match asBool inv with
      | none => (some (.je .invalidOut), v)
      | some b => (none, .vbool b)
    | .strT =>
      match asStr inv with
      | none => (some (.je .invalidOut), v)
      | some s => (none, .vstr s)
    | .f64T =>
      match asF64 inv with
      | none => (some (.je .invalidOut), v)
      | some q => (none, .vf64 q)
    | .f32T =>
      -- if v - float64(float32(v)) != 0 { return ErrTruncate }
      match asF64 inv with
      | none => (some (.je .invalidOut), v)
      | some q =>
        match roundF32 q with
        | none => (some (.je .truncate), v)
        | some w => if q - w ≠ 0 then (some (.je .truncate), v) else (none, .vf32 w)
    | .intT k =>
      -- if v - float64(T(v)) != 0 { return ErrTruncate }; the ten integer
      -- cases of the source differ only in T's bounds.
      match asF64 inv with
      | none => (some (.je .invalidOut), v)
      | some q =>
        let c := goF2I (loI k) (hiI k) q
        if q - (c : ℚ) ≠ 0 then (some (.je .truncate), v) else (none, .vint k c)
    | .otherT => (none, v)

/-- The slice-assignment loop (lines 190-196): each source element is
assigned into a fresh zero element; the first fault stops the loop and
discards the new slice. -/
def assignElems (elems : List RVal) (et : OType) : Option AFault × List OVal :=
  match elems with
  | [] => (none, [])
  | r :: rs =>
    let x := assign r et (zeroOf et)
    match x.1 with
    | some f => (some f, [])
    | none =>
      let y := assignElems rs et
      (y.1, x.2 :: y.2)

/-- The struct-field loop (lines 198-224): for each settable destination
field, split its `json` tag on commas; scan the source keys in order and
take the first `key == tags[0]` — the `EqualFold(key, fld.Name)` branch
is dead code because `strings.Split` never returns an empty slice; on a
match, recursively assign the (interface-kinded) map value and move to
the next field.  A fault stops the loop; fields already assigned keep
their new values (the source mutates `out` in place). -/
def assignFields (m : List (String × JValue)) (keys : List String) :
    FldList → List OVal → Option AFault × List OVal
  | .fnil, vs => (none, vs)
  | .fcons _ _ _ _ _, [] => (none, [])
  | .fcons name tag canSet ft rest, fv :: fvs =>
    if canSet = false then
      let y := assignFields m keys rest fvs
      (y.1, fv :: y.2)
    else
      let tags := goSplitComma tag
      match keys.find? (fun key =>
          if tags.length > 0 then key == tags.headD ""
          else asciiEqualFold key name) with
      | none =>
        let y := assignFields m keys rest fvs
        (y.1, fv :: y.2)
      | some key =>
        let kv := (lookupA m key).getD .null
        let x := assign (.iface kv) ft fv
        match x.1 with
        | some f => (some f, x.2 :: fvs)
        | none =>
          let y := assignFields m keys rest fvs
          (y.1, x.2 :: y.2)

end

/-- The `out` argument of `Get` as seen through reflect: absent
(`reflect.ValueOf(nil)` is invalid), a non-pointer, a typed nil pointer
(valid, kind `Ptr`, but `Elem()` is the invalid value), or a live
pointer to a slot of type `t` currently holding `v`. -/
inductive OutArg
  | absent
  | nonPtr
  | nilPtr (t : OType)
  | ptr (t : OType) (v : OVal)

/-- The view `reflect.ValueOf(ifc)` of a resolved dynamic value: JSON
null unmarshals to a nil interface, whose reflect value is invalid. -/
def rvalOfTop : JValue → RVal
  | .null => .invalid
  | v => .concrete v

/-- `Get(path, out)` (lines 372-387): reject an invalid or non-pointer
`out` with `ErrInvalidOut`; resolve the path in read mode; feed the
result and `out.Elem()` to `assign`.  For a typed nil pointer, `Elem()`
is the invalid reflect value: its kind `Invalid` matches no case of
`assign`'s switch, which therefore returns nil without writing. -/
def Get (root : JValue) (path : String) (out : OutArg) : Option AFault × OutArg :=
  match out with
  | .absent => (some (.je .invalidOut), .absent)
  | .nonPtr => (some (.je .invalidOut), .nonPtr)
  | .nilPtr t =>
    match find root path false with
    | .error e => (some (.je e), .nilPtr t)
    | .ok _ => (none, .nilPtr t)
  | .ptr t v =>
    match find root path false with
    | .error e => (some (.je e), .ptr t v)
    | .ok (_, ifc) =>
      let r := assign (rvalOfTop ifc) t v
      (r.1, .ptr t r.2)

/-- The destination type a scalar dynamic value is naturally read into
(`float64` for a Number, as the source stores all numbers). -/
def natType : JValue → OType
  | .bool _ => .boolT
  | .str _ => .strT
  | .num _ => .f64T
  | _ => .otherT

/-- The slot value `Get` produces for a scalar at its natural type. -/
def natVal : JValue → OVal
  | .bool b => .vbool b
  | .str s => .vstr s
  | .num q => .vf64 q
  | _ => .vother

/-- The typed Go value a caller passes back to `Set` after reading a
scalar at its natural type. -/
def goValOf : JValue → GoVal
  | .bool b => .gbool b
  | .str s => .gstr s
  | .num q => .gf64 q
  | _ => .ch

/-! ### Helper lemmas -/

/-- Writing an element back to its own position is the identity. -/
theorem set_getD_self {α : Type} (l : List α) (i : ℕ) (d : α) (h : i < l.length) :
    l.set i (l.getD i d) = l := by
  induction l generalizing i with
  | nil => simp at h
  | cons x xs ih =>
    cases i with
    | zero => simp
    | succ n => simpa [List.getD] using ih n (by simpa using h)

/-- Writing the value a key already holds back to that key is the
identity on the association list. -/
theorem updateA_lookup_self (m : List (String × JValue)) (k : String) (v : JValue)
    (h : lookupA m k = some v) : updateA m k v = m := by
  induction m with
  | nil => simp [lookupA] at h
  | cons p t ih =>
    obtain ⟨k', w⟩ := p
    by_cases hk : k' = k
    · subst hk
      simp [lookupA] at h
      simp [updateA, h]
    · simp [lookupA, hk] at h
      simp [updateA, hk, ih h]

/-- Writing to an absent key appends a new binding. -/
theorem updateA_lookup_none (m : List (String × JValue)) (k : String) (v : JValue)
    (h : lookupA m k = none) : updateA m k v = m ++ [(k, v)] := by
  induction m with
  | nil => simp [updateA]
  | cons p t ih =>
    obtain ⟨k', w⟩ := p
    by_cases hk : k' = k
    · subst hk; simp [lookupA] at h
    · simp [lookupA, hk] at h
      simp [updateA, hk, ih h]

/-- `LastIndex` never finds an absent character. -/
theorem lastIdxZ_not_mem (c : Char) (l : List Char) (h : c ∉ l) :
    lastIdxZ c l = -1 := by
  induction l with
  | nil => rfl
  | cons x xs ih =>
    simp at h
    simp [lastIdxZ, ih h.2, h.1, Ne.symm h.1]

/-- `lastIdxZ` only takes the value `-1` or a nonnegative index. -/
theorem lastIdxZ_cases (c : Char) (l : List Char) :
    lastIdxZ c l = -1 ∨ lastIdxZ c l ≥ 0 := by
  induction l with
  | nil => left; rfl
  | cons x xs ih =>
    simp only [lastIdxZ]
    rcases ih with h | h
    · rw [h]
      by_cases hx : x = c
      · right; simp [hx]
      · left; simp [hx, h]
    · right; rw [if_pos h]; omega

/-- `LastIndex` is nonnegative exactly on a present character. -/
theorem lastIdxZ_nonneg (c : Char) (l : List Char) : lastIdxZ c l ≥ 0 ↔ c ∈ l := by
  induction l with
  | nil => simp [lastIdxZ]
  | cons x xs ih =>
    simp only [lastIdxZ, List.mem_cons]
    by_cases h : lastIdxZ c xs ≥ 0
    · rw [if_pos h]
      constructor
      · intro _; exact Or.inr (ih.mp h)
      · intro _; omega
    · rw [if_neg h]
      by_cases hx : x = c
      · rw [if_pos hx]
        constructor
        · intro _; exact Or.inl hx.symm
        · intro _; omega
      · rw [if_neg hx]
        constructor
        · intro hc; exact absurd hc (by decide)
        · rintro (hc | hc)
          · exact absurd hc.symm hx
          · exact absurd (ih.mpr hc) h

/-- `LastIndex` over a concatenation: an occurrence in the right part
wins, else the left part's answer stands. -/
theorem lastIdxZ_append (c : Char) (l₁ l₂ : List Char) :
    lastIdxZ c (l₁ ++ l₂) =
      if lastIdxZ c l₂ ≥ 0 then (l₁.length : ℤ) + lastIdxZ c l₂
      else lastIdxZ c l₁ := by
  induction l₁ with
  | nil =>
    by_cases h : lastIdxZ c l₂ ≥ 0
    · simp [h]
    · rcases lastIdxZ_cases c l₂ with h2 | h2
      · simp [h, h2, lastIdxZ]
      · exact absurd h2 h
  | cons x xs ih =>
    by_cases h : lastIdxZ c l₂ ≥ 0
    · have h2 : (xs.length : ℤ) + lastIdxZ c l₂ ≥ 0 := by omega
      simp only [List.cons_append, List.append_eq, lastIdxZ, ih, if_pos h,
        if_pos h2, List.length_cons]
      omega
    · simp only [List.cons_append, List.append_eq, lastIdxZ, ih, if_neg h]

/-- Every character of a digit run `Atoi`'s core accepts is a digit. -/
theorem goAtoiCore_chars (neg : Bool) (ds : List Char) (i : ℤ)
    (h : goAtoiCore neg ds = some i) : ∀ c ∈ ds, '0' ≤ c ∧ c ≤ '9' := by
  unfold goAtoiCore at h
  split at h
  · exact absurd h (by simp)
  · split at h
    · rename_i hall
      intro c hc
      have := List.all_eq_true.mp hall c hc
      simpa using this
    · exact absurd h (by simp)

/-- Every character of a string `Atoi` accepts is a sign or a digit. -/
theorem goAtoi_chars (ds : List Char) (i : ℤ) (h : goAtoi ds = some i) :
    ∀ c ∈ ds, c = '-' ∨ c = '+' ∨ ('0' ≤ c ∧ c ≤ '9') := by
  match ds with
  | [] => simp [goAtoi] at h
  | c0 :: rest =>
    simp only [goAtoi] at h
    by_cases hneg : c0 = '-'
    · rw [if_pos hneg] at h
      intro c hc
      rcases List.mem_cons.mp hc with hc | hc
      · exact Or.inl (hc.trans hneg)
      · exact Or.inr (Or.inr (goAtoiCore_chars _ _ _ h c hc))
    · rw [if_neg hneg] at h
      by_cases hpos : c0 = '+'
      · rw [if_pos hpos] at h
        intro c hc
        rcases List.mem_cons.mp hc with hc | hc
        · exact Or.inr (Or.inl (hc.trans hpos))
        · exact Or.inr (Or.inr (goAtoiCore_chars _ _ _ h c hc))
      · rw [if_neg hpos] at h
        intro c hc
        exact Or.inr (Or.inr (goAtoiCore_chars _ _ _ h c hc))

/-- A bracket never occurs inside an index `Atoi` accepts. -/
theorem goAtoi_no_bracket (ds : List Char) (i : ℤ) (h : goAtoi ds = some i) :
    '[' ∉ ds ∧ ']' ∉ ds := by
  constructor <;> intro hm <;>
    rcases goAtoi_chars ds i h _ hm with h' | h' | h' <;> revert h' <;> decide

/-- A segment without `[` parses to itself as a field with the no-index
sentinel `-1`. -/
theorem parseSeg_plain (seg : List Char) (h : '[' ∉ seg) :
    parseSeg seg = .ok (⟨seg⟩, -1) := by
  have ha := lastIdxZ_not_mem '[' seg h
  unfold parseSeg
  rw [ha]
  simp

/-- A segment of the shape `f[ds]junk`, where `ds` is an accepted index
and `junk` contains no bracket, parses to field `f` and index `i`: the
text after the last `]` is discarded. -/
theorem parseSeg_bracket (f ds junk : List Char) (i : ℤ)
    (h : goAtoi ds = some i) (hj1 : '[' ∉ junk) (hj2 : ']' ∉ junk) :
    parseSeg (f ++ '[' :: ds ++ ']' :: junk) = .ok (⟨f⟩, i) := by
  obtain ⟨hd1, hd2⟩ := goAtoi_no_bracket ds i h
  have hX1 : '[' ∉ ds ++ ']' :: junk := by
    simp only [List.mem_append, List.mem_cons]
    push_neg
    exact ⟨hd1, by decide, hj1⟩
  have hinner : lastIdxZ '[' ('[' :: (ds ++ ']' :: junk)) = 0 := by
    simp only [lastIdxZ, lastIdxZ_not_mem _ _ hX1]
    decide
  have ha : lastIdxZ '[' (f ++ '[' :: ds ++ ']' :: junk) = (f.length : ℤ) := by
    rw [List.append_assoc] at *
    rw [show ('[' :: ds) ++ ']' :: junk = '[' :: (ds ++ ']' :: junk) by simp]
    rw [lastIdxZ_append, hinner]
    simp
  have hrj : lastIdxZ ']' (']' :: junk) = 0 := by
    simp only [lastIdxZ, lastIdxZ_not_mem _ _ hj2]
    decide
  have hds : lastIdxZ ']' (ds ++ ']' :: junk) = (ds.length : ℤ) := by
    rw [lastIdxZ_append, hrj]
    simp
  have hinner2 : lastIdxZ ']' ('[' :: (ds ++ ']' :: junk)) = (ds.length : ℤ) + 1 := by
    simp only [lastIdxZ, hds]
    rw [if_pos (by positivity)]
  have hb : lastIdxZ ']' (f ++ '[' :: ds ++ ']' :: junk)
      = (f.length : ℤ) + (ds.length : ℤ) + 1 := by
    rw [show f ++ '[' :: ds ++ ']' :: junk = f ++ ('[' :: (ds ++ ']' :: junk)) by simp]
    rw [lastIdxZ_append, hinner2]
    rw [if_pos (by positivity)]
    ring
  have hsub : ((f ++ '[' :: ds ++ ']' :: junk).drop ((f.length : ℤ).toNat + 1)).take
      (((f.length : ℤ) + (ds.length : ℤ) + 1 - (f.length : ℤ) - 1).toNat) = ds := by
    have h1 : ((f.length : ℤ)).toNat + 1 = (f ++ ['[']).length := by simp
    have h2 : f ++ '[' :: ds ++ ']' :: junk = (f ++ ['[']) ++ (ds ++ ']' :: junk) := by
      simp
    rw [h1, h2, List.drop_left]
    have h3 : ((f.length : ℤ) + (ds.length : ℤ) + 1 - (f.length : ℤ) - 1).toNat
        = ds.length := by omega
    rw [h3, List.take_left]
  unfold parseSeg
  rw [ha, hb]
  rw [if_pos (by positivity)]
  rw [if_neg (by omega)]
  rw [hsub, h]
  have hkey : (f ++ '[' :: ds ++ ']' :: junk).take ((f.length : ℤ)).toNat = f := by
    have : ((f.length : ℤ)).toNat = f.length := rfl
    rw [this, show f ++ '[' :: ds ++ ']' :: junk = f ++ ('[' :: (ds ++ ']' :: junk)) by simp,
      List.take_left]
  rw [hkey]

/-! ### Claim theorems -/

/-- C3 counterexample: contrary to the claim, the paths `"a[-1]"` and
`"[1]extra"` are not rejected with InvalidPath.  `strconv.Atoi` accepts
the leading `-` and the negative index is then treated as "no index",
so on the empty-object document `"a[-1]"` reports NotFound; and the
characters after `]` are discarded, so on `[1,2]` the path `"[1]extra"`
resolves successfully to the element `2`. -/
theorem claimC3_counterexample :
    find (.obj []) "a[-1]" false = .error .notFound
    ∧ JErr.notFound ≠ JErr.invalidPath
    ∧ find (.arr [.num 1, .num 2]) "[1]extra" false = .ok (.pnone, .num 2) :=
  ⟨rfl, by decide, rfl⟩

/-- C3 (amended): the paths `""`, `"."`, `"a..b"` and `"a[x]"` yield
InvalidPath from Get, Set and Len (and from `find` itself in both modes)
without touching the document.  The paths `"a[-1]"` and `"[1]extra"`
are NOT rejected: `Atoi` accepts a leading sign and a negative parsed
index is treated as no index at all, so `"a[-1]"` resolves exactly like
`"a"`; characters after the closing `]` are discarded, so `"[1]extra"`
resolves exactly like `"[1]"`. -/
theorem claimC3 :
    (∀ root parent, find root "" parent = .error .invalidPath)
    ∧ (∀ root parent, find root "." parent = .error .invalidPath)
    ∧ (∀ root parent, find root "a..b" parent = .error .invalidPath)
    ∧ (∀ root parent, find root "a[x]" parent = .error .invalidPath)
    ∧ (∀ root t v, Get root "" (.ptr t v) = (some (.je .invalidPath), .ptr t v))
    ∧ (∀ root t v, Get root "." (.ptr t v) = (some (.je .invalidPath), .ptr t v))
    ∧ (∀ root t v, Get root "a..b" (.ptr t v) = (some (.je .invalidPath), .ptr t v))
    ∧ (∀ root t v, Get root "a[x]" (.ptr t v) = (some (.je .invalidPath), .ptr t v))
    ∧ (∀ root g, Set root "" (some g) = (some (.je .invalidPath), root))
    ∧ (∀ root g, Set root "." (some g) = (some (.je .invalidPath), root))
    ∧ (∀ root g, Set root "a..b" (some g) = (some (.je .invalidPath), root))
    ∧ (∀ root g, Set root "a[x]" (some g) = (some (.je .invalidPath), root))
    ∧ (∀ root, Len root "" = (-1, some .invalidPath))
    ∧ (∀ root, Len root "." = (-1, some .invalidPath))
    ∧ (∀ root, Len root "a..b" = (-1, some .invalidPath))
    ∧ (∀ root, Len root "a[x]" = (-1, some .invalidPath))
    ∧ (∀ root parent, find root "a[-1]" parent = find root "a" parent)
    ∧ (∀ root parent, find root "[1]extra" parent = find root "[1]" parent) :=
  ⟨fun _ _ => rfl, fun _ _ => rfl, fun _ _ => rfl, fun _ _ => rfl,
   fun _ _ _ => rfl, fun _ _ _ => rfl, fun _ _ _ => rfl, fun _ _ _ => rfl,
   fun _ _ => rfl, fun _ _ => rfl, fun _ _ => rfl, fun _ _ => rfl,
   fun _ => rfl, fun _ => rfl, fun _ => rfl, fun _ => rfl,
   fun _ _ => rfl, fun _ _ => rfl⟩

/-- C10 counterexample: contrary to the claim, a segment `f[n]junk` does
not always behave like `f[n]`: when the junk contains a `[`, the last
`[` of the segment moves past the last `]` and the segment is rejected
as InvalidPath, while `f[n]` itself resolves (here to NotFound on the
empty object). -/
theorem claimC10_counterexample :
    find (.obj []) "a[1]x[" false = .error .invalidPath
    ∧ find (.obj []) "a[1]" false = .error .notFound
    ∧ JErr.invalidPath ≠ JErr.notFound :=
  ⟨rfl, rfl, by decide⟩

/-- C10 (amended): in a segment of the shape `f[n]junk` whose trailing
characters contain neither `[` nor `]`, the junk is silently discarded:
the segment resolves identically to `f[n]`, for every document, mode and
continuation of the path.  A segment containing `]` but no `[` is
treated as a literal field name. -/
theorem claimC10 :
    (∀ parent (cur : JValue) rest (f ds junk : List Char) (i : ℤ),
        goAtoi ds = some i → '[' ∉ junk → ']' ∉ junk →
        walk parent cur ((f ++ '[' :: ds ++ ']' :: junk) :: rest)
          = walk parent cur ((f ++ '[' :: ds ++ [']']) :: rest))
    ∧ (∀ parent (m : List (String × JValue)) (seg : List Char) rest,
        '[' ∉ seg → seg ≠ [] →
        walk parent (.obj m) (seg :: rest)
          = if parent ∧ rest.isEmpty then .ok (.pkey ⟨seg⟩, .obj m)
            else
              match lookupA m ⟨seg⟩ with
              | none => .error .notFound
              | some iv => walk parent iv rest) := by
  constructor
  · intro parent cur rest f ds junk i h hj1 hj2
    have hp1 := parseSeg_bracket f ds junk i h hj1 hj2
    have hp2 := parseSeg_bracket f ds [] i h (by simp) (by simp)
    simp only [walk, hp1, hp2]
  · intro parent m seg rest h1 h2
    have hp := parseSeg_plain seg h1
    have hne : (⟨seg⟩ : String) ≠ "" := fun hEq => h2 (congrArg String.data hEq)
    simp only [walk, hp]
    rw [if_neg hne]
    by_cases hc : parent ∧ rest.isEmpty
    · rw [if_pos ⟨by decide, hc⟩, if_pos hc]
    · rw [if_neg (fun hh => hc hh.2), if_neg hc]
      cases hL : lookupA m ⟨seg⟩ with
      | none => rfl
      | some iv => simp

/-- C10 witness: the amended claim applied at concrete inputs: the
segment `a[1]x` resolves exactly like `a[1]` on the empty object, and
the bracketless segment `a]` is used as a literal field key in write
mode. -/
theorem claimC10_witness :
    walk false (.obj []) [['a', '[', '1', ']', 'x']]
      = walk false (.obj []) [['a', '[', '1', ']']]
    ∧ walk true (.obj []) [['a', ']']] = .ok (.pkey ⟨['a', ']']⟩, .obj []) := by
  constructor
  · exact claimC10.1 false (.obj []) [] ['a'] ['1'] ['x'] 1 rfl (by decide) (by decide)
  · have h := claimC10.2 true [] ['a', ']'] [] (by decide) (by decide)
    rw [h]
    simp

/-- C7 counterexample: contrary to the claim, a typed nil pointer
destination is not rejected with InvalidOut: it passes the
`Kind() == Ptr` test, its `Elem()` is the invalid reflect value, and
`assign`'s kind switch matches no case, so Get returns nil. -/
theorem claimC7_counterexample :
    Get (.obj [("a", .num 1)]) "a" (.nilPtr .f64T) = (none, .nilPtr .f64T)
    ∧ (none : Option AFault) ≠ some (.je .invalidOut) :=
  ⟨rfl, by decide⟩

/-- C7 (amended): an absent destination (`reflect.ValueOf(nil)` is
invalid) and a non-pointer destination yield InvalidOut with nothing
written; a typed nil pointer, however, passes the pointer check, the
assignment into its invalid `Elem()` is a silent no-op, and Get returns
the path-resolution error or nil. -/
theorem claimC7 :
    (∀ root path, Get root path .absent = (some (.je .invalidOut), .absent))
    ∧ (∀ root path, Get root path .nonPtr = (some (.je .invalidOut), .nonPtr))
    ∧ (∀ root path t, Get root path (.nilPtr t) =
        (match find root path false with
         | .error e => (some (.je e), .nilPtr t)
         | .ok _ => (none, .nilPtr t))) :=
  ⟨fun _ _ => rfl, fun _ _ => rfl, fun _ _ _ => rfl⟩

/-- C1: contrary to the claim (and to the package's own documentation,
"JSON is designed so that it should never panic"), Get can raise an
uncatchable reflect fault: on the document `{"a":1}`, reading path
`"a"` into a non-nil `*[]int` reaches `assign`'s Slice case, which
calls `in.Len()` on a `float64` reflect value — a kind for which `Len`
panics. -/
theorem claimC1_get_aborts :
    (Get (.obj [("a", .num 1)]) "a"
        (.ptr (.sliceT (.intT .ik)) (.vslice []))).1 = some .aborted := by
  simp [Get, find, splitOnChar, walk, parseSeg, lastIdxZ, goAtoi, digitsVal,
    lookupA, assign, assignElems, assignFields, rLen, rElems, rvalOfTop,
    RVal.isInvalid]

/-- C2: contrary to the claim (and to Get's own documentation, "Field
names are matched first by tag respecting case, then by field name
ignoring case"), an untagged destination field is never matched by
case-insensitive name: `strings.Split("", ",")` is `[""]`, so
`len(tags) > 0` always holds and the `EqualFold` fallback is dead code;
the untagged field only matches a source key equal to the empty string.
On Object `{"name":"X","extra":"Y"}` and a record with a single
untagged settable field `Name`, Get returns no error but leaves `Name`
at its zero value instead of populating it with `"X"`. -/
theorem claimC2_untagged_field_not_populated :
    Get (.obj [("p", .obj [("name", .str "X"), ("extra", .str "Y")])]) "p"
      (.ptr (.structT (.fcons "Name" "" true .strT .fnil)) (.vstruct [.vstr ""]))
    = (none, .ptr (.structT (.fcons "Name" "" true .strT .fnil))
        (.vstruct [.vstr ""])) := by
  simp [Get, find, splitOnChar, walk, parseSeg, lastIdxZ, goAtoi, digitsVal,
    lookupA, assign, assignFields, goSplitComma, RVal.isInvalid, rvalOfTop,
    List.find?]

/-- C6: NotFound and OutOfRange stay distinct during path walking, at any
position in the path, in both modes.  A bare index step on a non-array
value is NotFound, as is a field-plus-index step whose field holds a
non-array; once the container is confirmed to be an array, any index at
or beyond its length is OutOfRange (never NotFound), both for a bare
index step and for a field-plus-index step. -/
theorem claimC6_notfound_vs_outofrange :
    (∀ parent (cur : JValue) rest (ds : List Char) (i : ℤ),
        goAtoi ds = some i → isArr cur = false →
        walk parent cur (('[' :: ds ++ [']']) :: rest) = .error .notFound)
    ∧ (∀ parent (xs : List JValue) rest (ds : List Char) (i : ℤ),
        goAtoi ds = some i → (xs.length : ℤ) ≤ i →
        walk parent (.arr xs) (('[' :: ds ++ [']']) :: rest) = .error .outOfRange)
    ∧ (∀ parent (m : List (String × JValue)) rest (f ds : List Char) (i : ℤ)
          (w : JValue),
        f ≠ [] → goAtoi ds = some i → 0 ≤ i →
        lookupA m ⟨f⟩ = some w → isArr w = false →
        walk parent (.obj m) ((f ++ '[' :: ds ++ [']']) :: rest) = .error .notFound)
    ∧ (∀ parent (m : List (String × JValue)) rest (f ds : List Char) (i : ℤ)
          (sv : List JValue),
        f ≠ [] → goAtoi ds = some i → 0 ≤ i →
        lookupA m ⟨f⟩ = some (.arr sv) → (sv.length : ℤ) ≤ i →
        walk parent (.obj m) ((f ++ '[' :: ds ++ [']']) :: rest)
          = .error .outOfRange) := by
  refine ⟨?_, ?_, ?_, ?_⟩
  · intro parent cur rest ds i h hcur
    have hp : parseSeg ('[' :: ds ++ [']']) = .ok (⟨[]⟩, i) := by
      simpa using parseSeg_bracket [] ds [] i h (by simp) (by simp)
    simp only [walk, hp, if_true]
    cases cur <;> simp [isArr] at hcur ⊢
  · intro parent xs rest ds i h hge
    have hp : parseSeg ('[' :: ds ++ [']']) = .ok (⟨[]⟩, i) := by
      simpa using parseSeg_bracket [] ds [] i h (by simp) (by simp)
    simp only [walk, hp, if_true]
    rw [if_pos (Or.inr hge)]
  · intro parent m rest f ds i w hf h hi hL hw
    have hp : parseSeg (f ++ '[' :: ds ++ [']']) = .ok (⟨f⟩, i) :=
      parseSeg_bracket f ds [] i h (by simp) (by simp)
    have hne : (⟨f⟩ : String) ≠ "" := fun hEq => hf (congrArg String.data hEq)
    simp only [walk, hp]
    rw [if_neg hne, if_neg (fun hh => absurd hh.1 (by omega)), hL]
    try simp only []
    rw [if_pos (by omega)]
    cases w <;> simp [isArr] at hw ⊢
  · intro parent m rest f ds i sv hf h hi hL hge
    have hp : parseSeg (f ++ '[' :: ds ++ [']']) = .ok (⟨f⟩, i) :=
      parseSeg_bracket f ds [] i h (by simp) (by simp)
    have hne : (⟨f⟩ : String) ≠ "" := fun hEq => hf (congrArg String.data hEq)
    simp only [walk, hp]
    rw [if_neg hne, if_neg (fun hh => absurd hh.1 (by omega)), hL]
    try simp only []
    rw [if_pos (by omega), if_pos hge]

/-- C6 witness: the claim theorem applied at concrete inputs: an index
step on a number is NotFound in all four shapes, index 1 on the
one-element array `[true]` (at top level and behind field `"a"`) is
OutOfRange. -/
theorem claimC6_witness :
    walk false (.num 5) ([['[', '0', ']']]) = .error .notFound
    ∧ walk false (.arr [.bool true]) ([['[', '1', ']']]) = .error .outOfRange
    ∧ walk true (.obj [("a", .num 5)]) ([['a', '[', '0', ']']]) = .error .notFound
    ∧ walk true (.obj [("a", .arr [.bool true])]) ([['a', '[', '1', ']']])
        = .error .outOfRange := by
  refine ⟨?_, ?_, ?_, ?_⟩
  · exact claimC6_notfound_vs_outofrange.1 false (.num 5) [] ['0'] 0 rfl rfl
  · exact claimC6_notfound_vs_outofrange.2.1 false [.bool true] [] ['1'] 1 rfl
      (by decide)
  · exact claimC6_notfound_vs_outofrange.2.2.1 true [("a", .num 5)] [] ['a'] ['0']
      0 (.num 5) (by decide) rfl (by decide) rfl rfl
  · exact claimC6_notfound_vs_outofrange.2.2.2 true [("a", .arr [.bool true])] []
      ['a'] ['1'] 1 [.bool true] (by decide) rfl (by decide) rfl (by decide)

/-- The integer cases of `assign` in one equation, exactly as the source
computes them: cast, then compare `v - float64(T(v))` with zero. -/
theorem assign_intT_eq (k : IKind) (q : ℚ) (v : OVal) :
    assign (.concrete (.num q)) (.intT k) v =
      if q - ((goF2I (loI k) (hiI k) q : ℤ) : ℚ) ≠ 0 then (some (.je .truncate), v)
      else (none, .vint k (goF2I (loI k) (hiI k) q)) := by
  simp only [assign, RVal.isInvalid, asF64, Bool.false_eq_true, if_false]

/-- The `float32` case of `assign` in one equation. -/
theorem assign_f32T_eq (q : ℚ) (v : OVal) :
    assign (.concrete (.num q)) .f32T v =
      match roundF32 q with
      | none => (some (.je .truncate), v)
      | some w =>
        if q - w ≠ 0 then (some (.je .truncate), v) else (none, .vf32 w) := by
  simp only [assign, RVal.isInvalid, asF64, Bool.false_eq_true, if_false]

/-- C4: for every narrower numeric destination kind and every dynamic
Number `q`, the assignment commits the cast value exactly when casting
`q` to the destination type and back up to double precision returns
`q`; otherwise it returns Truncate and leaves the destination slot
unmodified.  (For `float32` destinations an overflow to infinity also
counts as "differs".)  In particular `3.5` into any integer kind is
Truncate with the slot unchanged, and `3.0` into any integer kind
succeeds, storing `3`. -/
theorem claimC4_numeric_truncation :
    (∀ (k : IKind) (q : ℚ) (v : OVal),
        assign (.concrete (.num q)) (.intT k) v =
          if ((goF2I (loI k) (hiI k) q : ℤ) : ℚ) ≠ q then (some (.je .truncate), v)
          else (none, .vint k (goF2I (loI k) (hiI k) q)))
    ∧ (∀ (q : ℚ) (v : OVal),
        assign (.concrete (.num q)) .f32T v =
          match roundF32 q with
          | none => (some (.je .truncate), v)
          | some w => if w ≠ q then (some (.je .truncate), v) else (none, .vf32 w))
    ∧ (∀ (k : IKind) (v : OVal),
        assign (.concrete (.num (7 / 2))) (.intT k) v = (some (.je .truncate), v))
    ∧ (∀ (k : IKind) (v : OVal),
        assign (.concrete (.num 3)) (.intT k) v = (none, .vint k 3)) := by
  refine ⟨?_, ?_, ?_, ?_⟩
  · intro k q v
    rw [assign_intT_eq]
    by_cases h : ((goF2I (loI k) (hiI k) q : ℤ) : ℚ) = q
    · rw [if_neg (by simp [h]), if_neg (by simp [h])]
    · rw [if_pos (sub_ne_zero.mpr (Ne.symm h)), if_pos h]
  · intro q v
    rw [assign_f32T_eq]
    cases hr : roundF32 q with
    | none => rfl
    | some w =>
      try simp only []
      by_cases h : w = q
      · rw [if_neg (by simp [h]), if_neg (by simp [h])]
      · rw [if_pos (sub_ne_zero.mpr (Ne.symm h)), if_pos h]
  · intro k v
    rw [assign_intT_eq]
    cases k <;> norm_num [goF2I, ratTrunc, loI, hiI]
  · intro k v
    rw [assign_intT_eq]
    cases k <;> norm_num [goF2I, ratTrunc, loI, hiI]

/-- On any fault, `setWalk` returns the document subtree unchanged:
either the walk stored successfully (no error) or the returned value is
the input — the store is the last thing that happens. -/
theorem setWalk_none_or_id (segs : List (List Char)) :
    ∀ (cur v : JValue),
      (setWalk cur segs v).1 = none ∨ (setWalk cur segs v).2 = cur := by
  induction segs with
  | nil => intro cur v; right; rfl
  | cons seg rest ih =>
    intro cur v
    simp only [setWalk]
    cases hp : parseSeg seg with
    | error e => right; rfl
    | ok ki =>
      obtain ⟨keyv, i⟩ := ki
      try simp only []
      by_cases hk : keyv = ""
      · rw [if_pos hk]
        cases cur with
        | arr si =>
          try simp only []
          by_cases hb : i < 0 ∨ (si.length : ℤ) ≤ i
          · rw [if_pos hb]; right; rfl
          · rw [if_neg hb]
            by_cases hr : rest.isEmpty
            · rw [if_pos hr]; left; rfl
            · rw [if_neg hr]
              rcases ih (si.getD i.toNat .null) v with h | h
              · left; exact h
              · right
                try simp only []
                rw [h, set_getD_self _ _ _ (by omega)]
        | null => right; rfl
        | bool b => right; rfl
        | num q => right; rfl
        | str s => right; rfl
        | obj kvs => right; rfl
      · rw [if_neg hk]
        cases cur with
        | obj mi =>
          try simp only []
          by_cases hc : i < 0 ∧ rest.isEmpty
          · rw [if_pos hc]; left; rfl
          · rw [if_neg hc]
            cases hL : lookupA mi keyv with
            | none => right; rfl
            | some iv =>
              try simp only []
              by_cases hgt : i > -1
              · rw [if_pos hgt]
                cases iv with
                | arr sv =>
                  try simp only []
                  by_cases hge : (sv.length : ℤ) ≤ i
                  · rw [if_pos hge]; right; rfl
                  · rw [if_neg hge]
                    by_cases hr : rest.isEmpty
                    · rw [if_pos hr]; left; rfl
                    · rw [if_neg hr]
                      rcases ih (sv.getD i.toNat .null) v with h | h
                      · left; exact h
                      · right
                        try simp only []
                        rw [h, set_getD_self _ _ _ (by omega),
                          updateA_lookup_self _ _ _ hL]
                | null => right; rfl
                | bool b => right; rfl
                | num q => right; rfl
                | str s => right; rfl
                | obj kvs => right; rfl
              · rw [if_neg hgt]
                rcases ih iv v with h | h
                · left; exact h
                · right
                  try simp only []
                  rw [h, updateA_lookup_self _ _ _ hL]
        | null => right; rfl
        | bool b => right; rfl
        | num q => right; rfl
        | str s => right; rfl
        | arr si => right; rfl

/-- C8: Set is fail-fast and atomic: whenever it returns an error — a
nil input, a malformed path, any path-resolution failure, or an encode
failure of the input value — the document root is exactly what it was
before the call; no partially applied Set is observable. -/
theorem claimC8_set_atomic (root : JValue) (path : String) (inv : Option GoVal)
    (e : SErr) (h : (Set root path inv).1 = some e) :
    (Set root path inv).2 = root := by
  unfold Set at h ⊢
  cases inv with
  | none => rfl
  | some g =>
    try simp only [] at h ⊢
    by_cases hg : (splitOnChar '.' path.data).length = 0
        ∨ (splitOnChar '.' path.data).any (·.isEmpty)
    · rw [if_pos hg]
    · rw [if_neg hg] at h ⊢
      cases hw : walk true root (splitOnChar '.' path.data) with
      | error e2 => rfl
      | ok r =>
        rw [hw] at h
        try simp only [] at h ⊢
        cases hc : encode g with
        | none => rfl
        | some v =>
          rw [hc] at h
          try simp only [] at h ⊢
          rcases setWalk_none_or_id (splitOnChar '.' path.data) root v with h2 | h2
          · rw [h2] at h; exact absurd h (by simp)
          · exact h2

/-- C8 witness: the theorem applied at a concrete erroring Set: a nil
input value errors with InvalidIn and leaves the empty-object document
unchanged. -/
theorem claimC8_witness :
    (Set (.obj []) "" none).1 = some (.je .invalidIn)
    ∧ (Set (.obj []) "" none).2 = .obj [] :=
  ⟨rfl, claimC8_set_atomic (.obj []) "" none (.je .invalidIn) rfl⟩

/-- Appending to a nonempty tail keeps a list nonempty. -/
theorem isEmpty_append_false {α : Type} (l1 l2 : List α) (h : l2.isEmpty = false) :
    (l1 ++ l2).isEmpty = false := by
  simp [List.isEmpty_iff] at h ⊢
  exact fun _ => h

/-- Looking up a key just written finds the written value. -/
theorem lookupA_updateA_self (m : List (String × JValue)) (k : String) (v : JValue) :
    lookupA (updateA m k v) k = some v := by
  induction m with
  | nil => simp [updateA, lookupA]
  | cons p t ih =>
    obtain ⟨k', w⟩ := p
    by_cases hk : k' = k
    · simp [updateA, hk, lookupA]
    · simp [updateA, hk, lookupA, ih]

/-- Reading an index just written yields the written element. -/
theorem getD_set_self {α : Type} (l : List α) (i : ℕ) (a d : α) (h : i < l.length) :
    (l.set i a).getD i d = a := by
  induction l generalizing i with
  | nil => simp at h
  | cons x xs ih =>
    cases i with
    | zero => simp
    | succ n => simpa [List.getD] using ih n (by simpa using h)

/-- A binding appended for a previously absent key is found by lookup. -/
theorem lookupA_append_fresh (m : List (String × JValue)) (k : String) (v : JValue)
    (h : lookupA m k = none) : lookupA (m ++ [(k, v)]) k = some v := by
  induction m with
  | nil => simp [lookupA]
  | cons p t ih =>
    obtain ⟨k', w⟩ := p
    by_cases hk : k' = k
    · subst hk; simp [lookupA] at h
    · simp [lookupA, hk] at h ⊢
      exact ih h

/-- Walk composition: if the read-mode walk resolves a path prefix to
`cur`, then walking the full path (in either mode) from the root equals
walking the remaining nonempty segments from `cur` — the parent-mode
last-segment special cases cannot fire inside the prefix because the
remainder is nonempty. -/
theorem walk_compose (pre : List (List Char)) :
    ∀ (p : Bool) (root cur : JValue) (segs : List (List Char)),
      segs.isEmpty = false →
      walk false root pre = .ok (.pnone, cur) →
      walk p root (pre ++ segs) = walk p cur segs := by
  induction pre with
  | nil =>
    intro p root cur segs hne hwf
    simp only [walk, Except.ok.injEq, Prod.mk.injEq] at hwf
    rw [List.nil_append, hwf.2]
  | cons s pre2 ih =>
    intro p root cur segs hne hwf
    have hiE : (pre2 ++ segs).isEmpty = false := isEmpty_append_false _ _ hne
    rw [walk.eq_def] at hwf
    try simp only [] at hwf
    rw [List.cons_append]
    conv_lhs => rw [walk.eq_def]
    try simp only []
    cases hp : parseSeg s with
    | error e => rw [hp] at hwf; exact absurd hwf (by simp)
    | ok ki =>
      obtain ⟨keyv, i⟩ := ki
      rw [hp] at hwf
      try simp only [] at hwf
      try simp only []
      by_cases hk : keyv = ""
      · rw [if_pos hk] at hwf ⊢
        cases root with
        | arr si =>
          try simp only [] at hwf ⊢
          by_cases hb : i < 0 ∨ (si.length : ℤ) ≤ i
          · rw [if_pos hb] at hwf; exact absurd hwf (by simp)
          · rw [if_neg hb] at hwf ⊢
            rw [if_neg (by simp)] at hwf
            rw [if_neg (by simp [hiE])]
            exact ih p _ cur segs hne hwf
        | null => exact absurd hwf (by simp)
        | bool b => exact absurd hwf (by simp)
        | num q => exact absurd hwf (by simp)
        | str s2 => exact absurd hwf (by simp)
        | obj kvs => exact absurd hwf (by simp)
      · rw [if_neg hk] at hwf ⊢
        cases root with
        | obj mi =>
          try simp only [] at hwf ⊢
          rw [if_neg (by simp)] at hwf
          rw [if_neg (by simp [hiE])]
          cases hL : lookupA mi keyv with
          | none => rw [hL] at hwf; exact absurd hwf (by simp)
          | some iv =>
            rw [hL] at hwf
            try simp only [] at hwf
            try simp only []
            by_cases hgt : i > -1
            · rw [if_pos hgt] at hwf ⊢
              cases iv with
              | arr sv =>
                try simp only [] at hwf ⊢
                by_cases hge : (sv.length : ℤ) ≤ i
                · rw [if_pos hge] at hwf; exact absurd hwf (by simp)
                · rw [if_neg hge] at hwf ⊢
                  rw [if_neg (by simp)] at hwf
                  rw [if_neg (by simp [hiE])]
                  exact ih p _ cur segs hne hwf
              | null => exact absurd hwf (by simp)
              | bool b => exact absurd hwf (by simp)
              | num q => exact absurd hwf (by simp)
              | str s2 => exact absurd hwf (by simp)
              | obj kvs => exact absurd hwf (by simp)
            · rw [if_neg hgt] at hwf ⊢
              exact ih p iv cur segs hne hwf
        | null => exact absurd hwf (by simp)
        | bool b => exact absurd hwf (by simp)
        | num q => exact absurd hwf (by simp)
        | str s2 => exact absurd hwf (by simp)
        | arr si => exact absurd hwf (by simp)

/-- Store composition: under the same prefix hypothesis, the fused
write walk on the full path produces the same error as the write walk of
the remaining segments started at `cur`, and the prefix of the rebuilt
document still resolves — to the updated subtree. -/
theorem setWalk_compose (pre : List (List Char)) :
    ∀ (root cur : JValue) (segs : List (List Char)) (v : JValue),
      segs.isEmpty = false →
      walk false root pre = .ok (.pnone, cur) →
      (setWalk root (pre ++ segs) v).1 = (setWalk cur segs v).1
      ∧ walk false (setWalk root (pre ++ segs) v).2 pre
          = .ok (.pnone, (setWalk cur segs v).2) := by
  induction pre with
  | nil =>
    intro root cur segs v hne hwf
    simp only [walk, Except.ok.injEq, Prod.mk.injEq] at hwf
    rw [List.nil_append, hwf.2]
    exact ⟨rfl, rfl⟩
  | cons s pre2 ih =>
    intro root cur segs v hne hwf
    have hiE : (pre2 ++ segs).isEmpty = false := isEmpty_append_false _ _ hne
    rw [walk.eq_def] at hwf
    try simp only [] at hwf
    rw [List.cons_append]
    cases hp : parseSeg s with
    | error e => rw [hp] at hwf; exact absurd hwf (by simp)
    | ok ki =>
      obtain ⟨keyv, i⟩ := ki
      rw [hp] at hwf
      try simp only [] at hwf
      by_cases hk : keyv = ""
      · rw [if_pos hk] at hwf
        cases root with
        | arr si =>
          try simp only [] at hwf
          by_cases hb : i < 0 ∨ (si.length : ℤ) ≤ i
          · rw [if_pos hb] at hwf; exact absurd hwf (by simp)
          · rw [if_neg hb] at hwf
            rw [if_neg (by simp)] at hwf
            obtain ⟨ih1, ih2⟩ := ih (si.getD i.toNat .null) cur segs v hne hwf
            have hred : setWalk (.arr si) (s :: (pre2 ++ segs)) v
                = ((setWalk (si.getD i.toNat .null) (pre2 ++ segs) v).1,
                   .arr (si.set i.toNat
                     (setWalk (si.getD i.toNat .null) (pre2 ++ segs) v).2)) := by
              conv_lhs => rw [setWalk.eq_def]
              try simp only []
              rw [hp]
              try simp only []
              rw [if_pos hk]
              try simp only []
              rw [if_neg hb, if_neg (by simp [hiE])]
            rw [hred]
            refine ⟨ih1, ?_⟩
            try simp only []
            conv_lhs => rw [walk.eq_def]
            try simp only []
            rw [hp]
            try simp only []
            rw [if_pos hk]
            try simp only []
            rw [if_neg (by simp only [List.length_set]; omega)]
            rw [if_neg (by simp)]
            rw [getD_set_self _ _ _ _ (by omega)]
            exact ih2
        | null => exact absurd hwf (by simp)
        | bool b => exact absurd hwf (by simp)
        | num q => exact absurd hwf (by simp)
        | str s2 => exact absurd hwf (by simp)
        | obj kvs => exact absurd hwf (by simp)
      · rw [if_neg hk] at hwf
        cases root with
        | obj mi =>
          try simp only [] at hwf
          rw [if_neg (by simp)] at hwf
          cases hL : lookupA mi keyv with
          | none => rw [hL] at hwf; exact absurd hwf (by simp)
          | some iv =>
            rw [hL] at hwf
            try simp only [] at hwf
            by_cases hgt : i > -1
            · rw [if_pos hgt] at hwf
              cases iv with
              | arr sv =>
                try simp only [] at hwf
                by_cases hge : (sv.length : ℤ) ≤ i
                · rw [if_pos hge] at hwf; exact absurd hwf (by simp)
                · rw [if_neg hge] at hwf
                  rw [if_neg (by simp)] at hwf
                  obtain ⟨ih1, ih2⟩ := ih (sv.getD i.toNat .null) cur segs v hne hwf
                  have hred : setWalk (.obj mi) (s :: (pre2 ++ segs)) v
                      = ((setWalk (sv.getD i.toNat .null) (pre2 ++ segs) v).1,
                         .obj (updateA mi keyv (.arr (sv.set i.toNat
                           (setWalk (sv.getD i.toNat .null) (pre2 ++ segs) v).2)))) := by
                    conv_lhs => rw [setWalk.eq_def]
                    try simp only []
                    rw [hp]
                    try simp only []
                    rw [if_neg hk]
                    try simp only []
                    rw [if_neg (by simp [hiE]), hL]
                    try simp only []
                    rw [if_pos hgt]
                    try simp only []
                    rw [if_neg hge, if_neg (by simp [hiE])]
                  rw [hred]
                  refine ⟨ih1, ?_⟩
                  try simp only []
                  conv_lhs => rw [walk.eq_def]
                  try simp only []
                  rw [hp]
                  try simp only []
                  rw [if_neg hk]
                  try simp only []
                  rw [if_neg (by simp)]
                  rw [lookupA_updateA_self]
                  try simp only []
                  rw [if_pos hgt]
                  try simp only []
                  rw [if_neg (by simp only [List.length_set]; omega)]
                  rw [if_neg (by simp)]
                  rw [getD_set_self _ _ _ _ (by omega)]
                  exact ih2
              | null => exact absurd hwf (by simp)
              | bool b => exact absurd hwf (by simp)
              | num q => exact absurd hwf (by simp)
              | str s2 => exact absurd hwf (by simp)
              | obj kvs => exact absurd hwf (by simp)
            · rw [if_neg hgt] at hwf
              obtain ⟨ih1, ih2⟩ := ih iv cur segs v hne hwf
              have hred : setWalk (.obj mi) (s :: (pre2 ++ segs)) v
                  = ((setWalk iv (pre2 ++ segs) v).1,
                     .obj (updateA mi keyv (setWalk iv (pre2 ++ segs) v).2)) := by
                conv_lhs => rw [setWalk.eq_def]
                try simp only []
                rw [hp]
                try simp only []
                rw [if_neg hk]
                try simp only []
                rw [if_neg (by simp [hiE]), hL]
                try simp only []
                rw [if_neg hgt]
              rw [hred]
              refine ⟨ih1, ?_⟩
              try simp only []
              conv_lhs => rw [walk.eq_def]
              try simp only []
              rw [hp]
              try simp only []
              rw [if_neg hk]
              try simp only []
              rw [if_neg (by simp)]
              rw [lookupA_updateA_self]
              try simp only []
              rw [if_neg hgt]
              exact ih2
        | null => exact absurd hwf (by simp)
        | bool b => exact absurd hwf (by simp)
        | num q => exact absurd hwf (by simp)
        | str s2 => exact absurd hwf (by simp)
        | arr si => exact absurd hwf (by simp)

/-- C5: in write mode a terminal field step on an Object need not
exist: wherever the path prefix resolves to an object lacking the key,
Set succeeds, appends the new binding to that object, and the value is
readable back at the full path.  Set never grows an array: a terminal
index at or past the current length — bare (`[n]`) or behind a field
(`f[n]`), at any nesting depth — is OutOfRange with the document
untouched.  And every resolution error of the write-mode walk on the
earlier part of the path is returned by Set as-is. -/
theorem claimC5_set_create_key :
    (∀ (pre : List (List Char)) (m : List (String × JValue)) (k : List Char)
        (path : String) (g : GoVal) (v : JValue) (root : JValue),
        splitOnChar '.' path.data = pre ++ [k] →
        (pre ++ [k]).any (·.isEmpty) = false →
        walk false root pre = .ok (.pnone, .obj m) →
        k ≠ [] → '[' ∉ k → lookupA m ⟨k⟩ = none → encode g = some v →
        (Set root path (some g)).1 = none
        ∧ walk false (Set root path (some g)).2 pre
            = .ok (.pnone, .obj (m ++ [(⟨k⟩, v)]))
        ∧ walk false (Set root path (some g)).2 (pre ++ [k]) = .ok (.pnone, v))
    ∧ (∀ (pre : List (List Char)) (xs : List JValue) (ds : List Char)
        (path : String) (g : GoVal) (i : ℤ) (root : JValue),
        splitOnChar '.' path.data = pre ++ [('[' :: ds ++ [']'])] →
        (pre ++ [('[' :: ds ++ [']'])]).any (·.isEmpty) = false →
        walk false root pre = .ok (.pnone, .arr xs) →
        goAtoi ds = some i → (xs.length : ℤ) ≤ i →
        Set root path (some g) = (some (.je .outOfRange), root))
    ∧ (∀ (pre : List (List Char)) (m : List (String × JValue)) (f ds : List Char)
        (sv : List JValue) (path : String) (g : GoVal) (i : ℤ) (root : JValue),
        splitOnChar '.' path.data = pre ++ [(f ++ '[' :: ds ++ [']'])] →
        (pre ++ [(f ++ '[' :: ds ++ [']'])]).any (·.isEmpty) = false →
        walk false root pre = .ok (.pnone, .obj m) →
        f ≠ [] → lookupA m ⟨f⟩ = some (.arr sv) →
        goAtoi ds = some i → 0 ≤ i → (sv.length : ℤ) ≤ i →
        Set root path (some g) = (some (.je .outOfRange), root))
    ∧ (∀ (root : JValue) (path : String) (g : GoVal) (e : JErr),
        ¬((splitOnChar '.' path.data).length = 0
            ∨ (splitOnChar '.' path.data).any (·.isEmpty)) →
        walk true root (splitOnChar '.' path.data) = .error e →
        Set root path (some g) = (some (.je e), root)) := by
  refine ⟨?_, ?_, ?_, ?_⟩
  · intro pre m k path g v root hsp hne2 hpre hk hnb hL henc
    have hguard : ¬((pre ++ [k]).length = 0
        ∨ ((pre ++ [k]).any (·.isEmpty)) = true) := by
      rintro (hcon | hcon)
      · simp at hcon
      · rw [hne2] at hcon; exact absurd hcon (by decide)
    have hne : (⟨k⟩ : String) ≠ "" := fun hEq => hk (congrArg String.data hEq)
    have hp := parseSeg_plain k hnb
    have hterm_t : walk true (.obj m) [k] = .ok (.pkey ⟨k⟩, .obj m) := by
      simp only [walk, hp]
      rw [if_neg hne, if_pos ⟨by decide, by decide, rfl⟩]
    have hwt : walk true root (pre ++ [k]) = .ok (.pkey ⟨k⟩, .obj m) := by
      rw [walk_compose pre true root (.obj m) [k] rfl hpre, hterm_t]
    have hterm_s : setWalk (.obj m) [k] v = (none, .obj (m ++ [(⟨k⟩, v)])) := by
      simp only [setWalk, hp]
      rw [if_neg hne, if_pos ⟨by decide, rfl⟩, updateA_lookup_none _ _ _ hL]
    obtain ⟨hs1, hs2⟩ := setWalk_compose pre root (.obj m) [k] v rfl hpre
    have hSet : Set root path (some g) = setWalk root (pre ++ [k]) v := by
      unfold Set
      try simp only []
      rw [hsp, if_neg hguard, hwt]
      try simp only []
      rw [henc]
    refine ⟨?_, ?_, ?_⟩
    · rw [hSet, hs1, hterm_s]
    · rw [hSet, hs2, hterm_s]
    · rw [hSet]
      have h2 : walk false (setWalk root (pre ++ [k]) v).2 pre
          = .ok (.pnone, .obj (m ++ [(⟨k⟩, v)])) := by
        rw [hs2, hterm_s]
      rw [walk_compose pre false _ _ [k] rfl h2]
      simp only [walk, hp]
      rw [if_neg hne, if_neg (by simp), lookupA_append_fresh _ _ _ hL]
      try simp only []
      rw [if_neg (by decide)]
  · intro pre xs ds path g i root hsp hne2 hpre hAtoi hge
    have hguard : ¬((pre ++ [('[' :: ds ++ [']'])]).length = 0
        ∨ ((pre ++ [('[' :: ds ++ [']'])]).any (·.isEmpty)) = true) := by
      rintro (hcon | hcon)
      · simp at hcon
      · rw [hne2] at hcon; exact absurd hcon (by decide)
    have hp : parseSeg ('[' :: ds ++ [']']) = .ok (⟨[]⟩, i) := by
      simpa using parseSeg_bracket [] ds [] i hAtoi (by simp) (by simp)
    have hterm : walk true (.arr xs) [('[' :: ds ++ [']'])] = .error .outOfRange := by
      simp only [walk, hp, if_true]
      rw [if_pos (Or.inr hge)]
    have hwt : walk true root (pre ++ [('[' :: ds ++ [']'])])
        = .error .outOfRange := by
      rw [walk_compose pre true root (.arr xs) [('[' :: ds ++ [']'])] rfl hpre, hterm]
    unfold Set
    try simp only []
    rw [hsp, if_neg hguard, hwt]
  · intro pre m f ds sv path g i root hsp hne2 hpre hf hL hAtoi hi hge
    have hguard : ¬((pre ++ [(f ++ '[' :: ds ++ [']'])]).length = 0
        ∨ ((pre ++ [(f ++ '[' :: ds ++ [']'])]).any (·.isEmpty)) = true) := by
      rintro (hcon | hcon)
      · simp at hcon
      · rw [hne2] at hcon; exact absurd hcon (by decide)
    have hp := parseSeg_bracket f ds [] i hAtoi (by simp) (by simp)
    have hne : (⟨f⟩ : String) ≠ "" := fun hEq => hf (congrArg String.data hEq)
    have hterm : walk true (.obj m) [(f ++ '[' :: ds ++ [']'])]
        = .error .outOfRange := by
      simp only [walk, hp]
      rw [if_neg hne, if_neg (fun hh => absurd hh.1 (by omega)), hL]
      try simp only []
      rw [if_pos (by omega), if_pos hge]
    have hwt : walk true root (pre ++ [(f ++ '[' :: ds ++ [']'])])
        = .error .outOfRange := by
      rw [walk_compose pre true root (.obj m) [(f ++ '[' :: ds ++ [']'])] rfl hpre, hterm]
    unfold Set
    try simp only []
    rw [hsp, if_neg hguard, hwt]
  · intro root path g e hg hw
    unfold Set
    try simp only []
    rw [if_neg hg, hw]

/-- C5 witness: the theorem applied at concrete nested inputs: Set
`"a.b"` on `{"a":{}}` creates key `b` inside `a` storing 5 (read back at
both the prefix and the full path); Set `"a.[0]"` on `{"a":[]}` and Set
`"p.a[1]"` on `{"p":{"a":[true]}}` are OutOfRange leaving the document
untouched; Set `"x"` on a number document returns the walk's NotFound
unchanged. -/
theorem claimC5_witness :
    (Set (.obj [("a", .obj [])]) "a.b" (some (.gf64 5))).1 = none
    ∧ walk false (Set (.obj [("a", .obj [])]) "a.b" (some (.gf64 5))).2 [['a']]
        = .ok (.pnone, .obj [("b", .num 5)])
    ∧ walk false (Set (.obj [("a", .obj [])]) "a.b" (some (.gf64 5))).2
        [['a'], ['b']] = .ok (.pnone, .num 5)
    ∧ Set (.obj [("a", .arr [])]) "a.[0]" (some (.gf64 5))
        = (some (.je .outOfRange), .obj [("a", .arr [])])
    ∧ Set (.obj [("p", .obj [("a", .arr [.bool true])])]) "p.a[1]" (some (.gf64 5))
        = (some (.je .outOfRange), .obj [("p", .obj [("a", .arr [.bool true])])])
    ∧ Set (.num 1) "x" (some (.gf64 5)) = (some (.je .notFound), .num 1) := by
  have h1 := claimC5_set_create_key.1 [['a']] [] ['b'] "a.b" (.gf64 5) (.num 5)
      (.obj [("a", .obj [])]) rfl rfl rfl (by decide) (by decide) rfl rfl
  refine ⟨h1.1, h1.2.1, h1.2.2, ?_, ?_, ?_⟩
  · exact claimC5_set_create_key.2.1 [['a']] [] ['0'] "a.[0]" (.gf64 5) 0
      (.obj [("a", .arr [])]) rfl rfl rfl rfl (by decide)
  · exact claimC5_set_create_key.2.2.1 [['p']] [("a", .arr [.bool true])] ['a'] ['1']
      [.bool true] "p.a[1]" (.gf64 5) 1
      (.obj [("p", .obj [("a", .arr [.bool true])])]) rfl rfl rfl (by decide)
      rfl rfl (by decide) (by decide)
  · exact claimC5_set_create_key.2.2.2 (.num 1) "x" (.gf64 5) .notFound (by decide) rfl

/-- A successful `find` means the segment-validity guard passed and the
walk succeeded. -/
theorem find_ok_parts (root : JValue) (path : String) (parent : Bool)
    (pk : PKey) (v : JValue) (h : find root path parent = .ok (pk, v)) :
    ¬((splitOnChar '.' path.data).length = 0
        ∨ (splitOnChar '.' path.data).any (·.isEmpty))
    ∧ walk parent root (splitOnChar '.' path.data) = .ok (pk, v) := by
  unfold find at h
  by_cases hg : (splitOnChar '.' path.data).length = 0
      ∨ (splitOnChar '.' path.data).any (·.isEmpty)
  · rw [if_pos hg] at h
    exact absurd h (by simp)
  · rw [if_neg hg] at h
    exact ⟨hg, h⟩

/-- If the read-mode walk resolves a nonempty path to the value `v`,
then the write-mode walk on the same path also succeeds (capturing a
locator), and storing that same `v` back through `setWalk` succeeds and
leaves the subtree unchanged — the read/write round trip of C9. -/
theorem walk_read_set_id (rest : List (List Char)) :
    ∀ (seg : List Char) (cur : JValue) (pk : PKey) (v : JValue),
      walk false cur (seg :: rest) = .ok (pk, v) →
      (∃ r, walk true cur (seg :: rest) = .ok r)
      ∧ setWalk cur (seg :: rest) v = (none, cur) := by
  induction rest with
  | nil =>
    intro seg cur pk v hwf
    simp only [walk] at hwf
    cases hp : parseSeg seg with
    | error e => rw [hp] at hwf; exact absurd hwf (by simp)
    | ok ki =>
      obtain ⟨keyv, i⟩ := ki
      rw [hp] at hwf
      try simp only [] at hwf
      by_cases hk : keyv = ""
      · rw [if_pos hk] at hwf
        cases cur with
        | arr si =>
          try simp only [] at hwf
          by_cases hb : i < 0 ∨ (si.length : ℤ) ≤ i
          · rw [if_pos hb] at hwf; exact absurd hwf (by simp)
          · rw [if_neg hb] at hwf
            rw [if_neg (by simp)] at hwf
            simp only [Except.ok.injEq, Prod.mk.injEq] at hwf
            constructor
            · refine ⟨(.pidx i, .arr si), ?_⟩
              conv_lhs => rw [walk.eq_def]
              try simp only []
              rw [hp]
              try simp only []
              rw [if_pos hk]
              try simp only []
              rw [if_neg hb, if_pos (by simp)]
            · conv_lhs => rw [setWalk.eq_def]
              try simp only []
              rw [hp]
              try simp only []
              rw [if_pos hk]
              try simp only []
              rw [if_neg hb, if_pos (by simp)]
              rw [← hwf.2, set_getD_self _ _ _ (by omega)]
        | null => exact absurd hwf (by simp)
        | bool b => exact absurd hwf (by simp)
        | num q => exact absurd hwf (by simp)
        | str s => exact absurd hwf (by simp)
        | obj kvs => exact absurd hwf (by simp)
      · rw [if_neg hk] at hwf
        cases cur with
        | obj mi =>
          try simp only [] at hwf
          rw [if_neg (by simp)] at hwf
          cases hL : lookupA mi keyv with
          | none => rw [hL] at hwf; exact absurd hwf (by simp)
          | some iv =>
            rw [hL] at hwf
            try simp only [] at hwf
            by_cases hgt : i > -1
            · rw [if_pos hgt] at hwf
              cases iv with
              | arr sv =>
                try simp only [] at hwf
                by_cases hge : (sv.length : ℤ) ≤ i
                · rw [if_pos hge] at hwf; exact absurd hwf (by simp)
                · rw [if_neg hge] at hwf
                  rw [if_neg (by simp)] at hwf
                  simp only [Except.ok.injEq, Prod.mk.injEq] at hwf
                  constructor
                  · refine ⟨(.pidx i, .arr sv), ?_⟩
                    conv_lhs => rw [walk.eq_def]
                    try simp only []
                    rw [hp]
                    try simp only []
                    rw [if_neg hk]
                    try simp only []
                    rw [if_neg (fun hh => absurd hh.1 (by omega)), hL]
                    try simp only []
                    rw [if_pos hgt]
                    try simp only []
                    rw [if_neg hge, if_pos (by simp)]
                  · conv_lhs => rw [setWalk.eq_def]
                    try simp only []
                    rw [hp]
                    try simp only []
                    rw [if_neg hk]
                    try simp only []
                    rw [if_neg (fun hh => absurd hh.1 (by omega)), hL]
                    try simp only []
                    rw [if_pos hgt]
                    try simp only []
                    rw [if_neg hge, if_pos (by simp)]
                    rw [← hwf.2, set_getD_self _ _ _ (by omega),
                      updateA_lookup_self _ _ _ hL]
              | null => exact absurd hwf (by simp)
              | bool b => exact absurd hwf (by simp)
              | num q => exact absurd hwf (by simp)
              | str s => exact absurd hwf (by simp)
              | obj kvs => exact absurd hwf (by simp)
            · rw [if_neg hgt] at hwf
              simp only [Except.ok.injEq, Prod.mk.injEq] at hwf
              constructor
              · refine ⟨(.pkey keyv, .obj mi), ?_⟩
                conv_lhs => rw [walk.eq_def]
                try simp only []
                rw [hp]
                try simp only []
                rw [if_neg hk]
                try simp only []
                rw [if_pos ⟨by omega, by simp⟩]
              · conv_lhs => rw [setWalk.eq_def]
                try simp only []
                rw [hp]
                try simp only []
                rw [if_neg hk]
                try simp only []
                rw [if_pos ⟨by omega, by simp⟩]
                rw [← hwf.2, updateA_lookup_self _ _ _ hL]
        | null => exact absurd hwf (by simp)
        | bool b => exact absurd hwf (by simp)
        | num q => exact absurd hwf (by simp)
        | str s => exact absurd hwf (by simp)
        | arr si => exact absurd hwf (by simp)
  | cons s r2 ih =>
    intro seg cur pk v hwf
    rw [walk.eq_def] at hwf
    try simp only [] at hwf
    cases hp : parseSeg seg with
    | error e => rw [hp] at hwf; exact absurd hwf (by simp)
    | ok ki =>
      obtain ⟨keyv, i⟩ := ki
      rw [hp] at hwf
      try simp only [] at hwf
      by_cases hk : keyv = ""
      · rw [if_pos hk] at hwf
        cases cur with
        | arr si =>
          try simp only [] at hwf
          by_cases hb : i < 0 ∨ (si.length : ℤ) ≤ i
          · rw [if_pos hb] at hwf; exact absurd hwf (by simp)
          · rw [if_neg hb] at hwf
            rw [if_neg (by simp)] at hwf
            obtain ⟨⟨r, hwt⟩, hsw⟩ := ih s (si.getD i.toNat .null) pk v hwf
            constructor
            · refine ⟨r, ?_⟩
              conv_lhs => rw [walk.eq_def]
              try simp only []
              rw [hp]
              try simp only []
              rw [if_pos hk]
              try simp only []
              rw [if_neg hb, if_neg (by simp), hwt]
            · conv_lhs => rw [setWalk.eq_def]
              try simp only []
              rw [hp]
              try simp only []
              rw [if_pos hk]
              try simp only []
              rw [if_neg hb, if_neg (by simp), hsw]
              try simp only []
              rw [set_getD_self _ _ _ (by omega)]
        | null => exact absurd hwf (by simp)
        | bool b => exact absurd hwf (by simp)
        | num q => exact absurd hwf (by simp)
        | str s => exact absurd hwf (by simp)
        | obj kvs => exact absurd hwf (by simp)
      · rw [if_neg hk] at hwf
        cases cur with
        | obj mi =>
          try simp only [] at hwf
          rw [if_neg (by simp)] at hwf
          cases hL : lookupA mi keyv with
          | none => rw [hL] at hwf; exact absurd hwf (by simp)
          | some iv =>
            rw [hL] at hwf
            try simp only [] at hwf
            by_cases hgt : i > -1
            · rw [if_pos hgt] at hwf
              cases iv with
              | arr sv =>
                try simp only [] at hwf
                by_cases hge : (sv.length : ℤ) ≤ i
                · rw [if_pos hge] at hwf; exact absurd hwf (by simp)
                · rw [if_neg hge] at hwf
                  rw [if_neg (by simp)] at hwf
                  obtain ⟨⟨r, hwt⟩, hsw⟩ := ih s (sv.getD i.toNat .null) pk v hwf
                  constructor
                  · refine ⟨r, ?_⟩
                    conv_lhs => rw [walk.eq_def]
                    try simp only []
                    rw [hp]
                    try simp only []
                    rw [if_neg hk]
                    try simp only []
                    rw [if_neg (fun hh => absurd hh.1 (by omega)), hL]
                    try simp only []
                    rw [if_pos hgt]
                    try simp only []
                    rw [if_neg hge, if_neg (by simp), hwt]
                  · conv_lhs => rw [setWalk.eq_def]
                    try simp only []
                    rw [hp]
                    try simp only []
                    rw [if_neg hk]
                    try simp only []
                    rw [if_neg (by simp), hL]
                    try simp only []
                    rw [if_pos hgt]
                    try simp only []
                    rw [if_neg hge, if_neg (by simp), hsw]
                    try simp only []
                    rw [set_getD_self _ _ _ (by omega),
                      updateA_lookup_self _ _ _ hL]
              | null => exact absurd hwf (by simp)
              | bool b => exact absurd hwf (by simp)
              | num q => exact absurd hwf (by simp)
              | str s => exact absurd hwf (by simp)
              | obj kvs => exact absurd hwf (by simp)
            · rw [if_neg hgt] at hwf
              obtain ⟨⟨r, hwt⟩, hsw⟩ := ih s iv pk v hwf
              constructor
              · refine ⟨r, ?_⟩
                conv_lhs => rw [walk.eq_def]
                try simp only []
                rw [hp]
                try simp only []
                rw [if_neg hk]
                try simp only []
                rw [if_neg (by simp), hL]
                try simp only []
                rw [if_neg hgt, hwt]
              · conv_lhs => rw [setWalk.eq_def]
                try simp only []
                rw [hp]
                try simp only []
                rw [if_neg hk]
                try simp only []
                rw [if_neg (by simp), hL]
                try simp only []
                rw [if_neg hgt, hsw]
                try simp only []
                rw [updateA_lookup_self _ _ _ hL]
        | null => exact absurd hwf (by simp)
        | bool b => exact absurd hwf (by simp)
        | num q => exact absurd hwf (by simp)
        | str s => exact absurd hwf (by simp)
        | arr si => exact absurd hwf (by simp)

/-- C9: round trip.  For any document and any valid path resolving in
read mode to a scalar value, Get into a destination of the value's
natural type succeeds and yields exactly that value; writing the value
back with Set succeeds and leaves the document root — and therefore
Export's output, byte for byte, for any indent — unchanged. -/
theorem claimC9_roundtrip (root : JValue) (path : String) (pk : PKey)
    (v : JValue) (indent : String)
    (hf : find root path false = .ok (pk, v)) (hs : isScalar v = true) :
    Get root path (.ptr (natType v) (zeroOf (natType v)))
        = (none, .ptr (natType v) (natVal v))
    ∧ Set root path (some (goValOf v)) = (none, root)
    ∧ Export (Set root path (some (goValOf v))).2 indent
        = Export root indent := by
  obtain ⟨hg, hw⟩ := find_ok_parts root path false pk v hf
  have henc : encode (goValOf v) = some v := by
    cases v <;> simp [isScalar] at hs <;> rfl
  obtain ⟨seg, rest, hks⟩ :
      ∃ seg rest, splitOnChar '.' path.data = seg :: rest := by
    cases hks : splitOnChar '.' path.data with
    | nil => rw [hks] at hg; simp at hg
    | cons a b => exact ⟨a, b, rfl⟩
  rw [hks] at hw
  obtain ⟨⟨r, hwt⟩, hsw⟩ := walk_read_set_id rest seg root pk v hw
  have hset : Set root path (some (goValOf v)) = (none, root) := by
    unfold Set
    try simp only []
    rw [if_neg hg, hks, hwt]
    try simp only []
    rw [henc]
    try simp only []
    exact hsw
  refine ⟨?_, hset, by rw [hset]⟩
  unfold Get
  rw [hf]
  try simp only []
  cases v with
  | bool b => simp [assign, rvalOfTop, RVal.isInvalid, asBool, natType, natVal, zeroOf]
  | num q => simp [assign, rvalOfTop, RVal.isInvalid, asF64, natType, natVal, zeroOf]
  | str s2 => simp [assign, rvalOfTop, RVal.isInvalid, asStr, natType, natVal, zeroOf]
  | null => simp [isScalar] at hs
  | arr xs => simp [isScalar] at hs
  | obj kvs => simp [isScalar] at hs

/-- C9 witness: the round trip on document `{"a":3}` and path `"a"`:
Get into a float64 slot yields 3, Set of 3 back returns no error and
the root (hence Export) is unchanged. -/
theorem claimC9_witness :
    find (.obj [("a", .num 3)]) "a" false = .ok (.pnone, .num 3)
    ∧ isScalar (.num 3) = true
    ∧ Get (.obj [("a", .num 3)]) "a" (.ptr .f64T (.vf64 0))
        = (none, .ptr .f64T (.vf64 3))
    ∧ Set (.obj [("a", .num 3)]) "a" (some (.gf64 3))
        = (none, .obj [("a", .num 3)])
    ∧ Export (Set (.obj [("a", .num 3)]) "a" (some (.gf64 3))).2 ""
        = Export (.obj [("a", .num 3)]) "" := by
  have h := claimC9_roundtrip (.obj [("a", .num 3)]) "a" .pnone (.num 3) "" rfl rfl
  exact ⟨rfl, rfl, h.1, h.2.1, h.2.2⟩

end Jo
